import Mathlib

/-!
Heatmap: the function `main` of `heatmap.c`

A C `int` is a 32-bit two's-complement integer.  Values are carried as
integers and every `int` product and difference of the scan is reduced with
`wrapInt`, the wraparound that the compiled program performs when a result
leaves the range `INT_MIN .. INT_MAX`.  The local `cell_char` is declared
without an initialiser; its state is an `Option`, with `none` standing for
"never assigned".
-/

namespace Heatmap

/-- The largest `int`. -/
def INT_MAX : Int := 2147483647

/-- The smallest `int`. -/
def INT_MIN : Int := -2147483648

/-- The `int` that a 32-bit two's-complement operation leaves for the exact
result `x`: `x` itself inside `INT_MIN .. INT_MAX`, wrapped modulo `2^32`
outside. -/
def wrapInt (x : Int) : Int :=
  (x + 2147483648) % 4294967296 - 2147483648

/-- The body of the `for (k = 0; k < m - 1; k++)` loop: the range check
`(cell >= k*n) && (cell <= (k+1) * n - 1)` in `int` arithmetic, which
overwrites `cell_char` with `argv[3][k]` when it succeeds.  The sum `k + 1` is
at most `m - 1` and cannot overflow; the two products and the difference can.
`sym k` stands for the value read at index `k`. -/
def tierStep {α : Type} (sym : Int → α) (n cell : Int) (cell_char : Option α) (k : Nat) :
    Option α :=
  if cell ≥ wrapInt ((k : Int) * n) ∧ cell ≤ wrapInt (wrapInt (((k : Int) + 1) * n) - 1) then
    some (sym k)
  else cell_char

/-- The loop `for (int k = 0; k < m - 1; k++)` of `main`, started with
`cell_char` unassigned.  It runs `k = 0, 1, ..., m - 2` (no iteration when
`m - 1 ≤ 0`) and never leaves early. -/
def tierLoop {α : Type} (sym : Int → α) (m n cell : Int) : Option α :=
  (List.range (m - 1).toNat).foldl (tierStep sym n cell) none

/-- The whole selection scan: the tier loop followed by the final check
`if (cell >= (m - 1) * n) cell_char = argv[3][m - 1];` in `int` arithmetic. -/
def tierScan {α : Type} (sym : Int → α) (m n cell : Int) : Option α :=
  if cell ≥ wrapInt ((m - 1) * n) then some (sym (m - 1)) else tierLoop sym m n cell

/-- The alphabet position whose character the scan leaves in `cell_char`. -/
def selectedTier (m n cell : Int) : Option Int :=
  tierScan id m n cell

/-- The read `argv[3][i]`; an index outside the string has no defined value. -/
def charAt (alphabet : List Char) (i : Int) : Option Char :=
  if 0 ≤ i then alphabet[i.toNat]? else none

/-- The character printed for one cell: `m = strlen(argv[3])` (the length of an
argument string, far below `INT_MAX`), then the scan with reads from
`argv[3]`. -/
def cellChar (alphabet : List Char) (n cell : Int) : Option Char :=
  (tierScan (charAt alphabet) (alphabet.length : Int) n cell).join

/-! ## The rendering loops of `main` -/

/-- The inner loop `for (j = 0; j < cols; j++)` over the column indices `js` of
one row: read `cell = map[i][j]`, run the scan, `printf("%c", cell_char)`.
The result is the text printed; it is `none` when a read falls outside the row
or when `cell_char` is printed without ever having been assigned. -/
def printCells (alphabet : List Char) (n : Int) (row : List Int) : List Nat → Option (List Char)
  | [] => some []
  | j :: js =>
    match row[j]? with
    | none => none
    | some cell =>
      match cellChar alphabet n cell with
      | none => none
      | some cell_char =>
        match printCells alphabet n row js with
        | none => none
        | some rest => some (cell_char :: rest)

/-- The outer loop `for (i = 0; i < rows; i++)` over the row indices `is`: the
inner loop over `j = 0 .. cols-1`, then `printf` of a line break. -/
def printRows (alphabet : List Char) (n : Int) (map : List (List Int)) (cols : Int) :
    List Nat → Option (List Char)
  | [] => some []
  | i :: is =>
    match map[i]? with
    | none => none
    | some row =>
      match printCells alphabet n row (List.range cols.toNat) with
      | none => none
      | some line =>
        match printRows alphabet n map cols is with
        | none => none
        | some rest => some (line ++ '\n' :: rest)

/-- Lines 56-77 of `main`: everything printed for the grid `map` of `rows` by
`cols` cells that `track_heatmap` handed back. -/
def render (alphabet : List Char) (n : Int) (map : List (List Int)) (rows cols : Int) :
    Option (List Char) :=
  printRows alphabet n map cols (List.range rows.toNat)

/-! ## The ingest loop of `main` -/

/-- A track point as built by `trackpoint_create(lat, lon, time)`; `D` is the
type of the two `double` coordinates, which `main` only passes on. -/
structure Trackpoint (D : Type) where
  /-- Latitude in decimal degrees. -/
  lat : D
  /-- Longitude in decimal degrees. -/
  lon : D
  /-- Timestamp in seconds. -/
  time : Int
deriving DecidableEq, Repr

/-- The successive results of `fgets` with room for `cap` characters, on the
rest of the input, `line` being the part of the current buffer already read:
a buffer ends after a line break, or when it holds `cap` characters, or at the
end of the input (where an empty buffer means `fgets` returns `NULL`). -/
def fgetsFrom (cap : Nat) (line : List Char) : List Char → List (List Char)
  | [] => if line = [] then [] else [line]
  | ch :: rest =>
    if ch = '\n' ∨ line.length + 1 = cap then (line ++ [ch]) :: fgetsFrom cap [] rest
    else fgetsFrom cap (line ++ [ch]) rest

/-- The buffers that the calls `fgets(line, size, stdin)` return until the end
of the input: each holds at most `size - 1` characters. -/
def fgetsBuffers (size : Nat) (stdin : List Char) : List (List Char) :=
  fgetsFrom (size - 1) [] stdin

/-- One pass of the body of `while (fgets(line, sizeof(line), stdin) != NULL)`.
`line` is the buffer that `fgets` filled, `scan3 line` is the point read when
`sscanf(line, "%lf %lf %ld", ...)` returns 3, and the second `sscanf` reads the
first character of a nonempty buffer. -/
def ingestStep {T D : Type} (track_add_point : T → Trackpoint D → T)
    (track_start_segment : T → T) (scan3 : List Char → Option (Trackpoint D))
    (trk : T) (line : List Char) : T :=
  match scan3 line with
  | some pt_eph => track_add_point trk pt_eph
  | none => if line.head? = some '\n' then track_start_segment trk else trk

/-- The loop of lines 27-42 over the buffers `lines` that `fgets` returned,
starting from `track_create()`. -/
def ingest {T D : Type} (track_create : T) (track_add_point : T → Trackpoint D → T)
    (track_start_segment : T → T) (scan3 : List Char → Option (Trackpoint D))
    (lines : List (List Char)) : T :=
  lines.foldl (ingestStep track_add_point track_start_segment scan3) track_create

/-- A record of the ingester as the specification describes it: a point or a
segment-break marker. -/
inductive Record (D : Type) where
  | point (pt : Trackpoint D)
  | segmentBreak
deriving DecidableEq, Repr

/-- The record a line stands for in the words of the specification: a blank
line is a segment break, a line that parses is a point, any other line is
skipped. -/
def recordOf {D : Type} (scan3 : List Char → Option (Trackpoint D)) (line : List Char) :
    Option (Record D) :=
  if line.head? = some '\n' then some Record.segmentBreak
  else (scan3 line).map Record.point

/-- The text of an input whose lines have the contents `lines`, each ended by a
line break, followed by a last line `lastLine` without line break (empty when
the input ends with a line break). -/
def inputText (lines : List (List Char)) (lastLine : List Char) : List Char :=
  (lines.map (fun l => l ++ ['\n'])).flatten ++ lastLine

/-- The lines of that input, one buffer each, line break included. -/
def inputLines (lines : List (List Char)) (lastLine : List Char) : List (List Char) :=
  lines.map (fun l => l ++ ['\n']) ++ (if lastLine = [] then [] else [lastLine])

/-- What a record does to a track. -/
def applyRecord {T D : Type} (track_add_point : T → Trackpoint D → T)
    (track_start_segment : T → T) (trk : T) : Record D → T
  | Record.point pt => track_add_point trk pt
  | Record.segmentBreak => track_start_segment trk

/-! ## The Track model -/

/-- Modelled from the spec: the Track of `track.h`, whose implementation is not
part of the sources.  A track is its ordered sequence of segments, each an
ordered sequence of track points; the last segment is the current one. -/
abbrev Track (D : Type) := List (List (Trackpoint D))

/-- Modelled from the spec: `create()` gives an empty Track with one empty
initial Segment. -/
def track_create {D : Type} : Track D := [[]]

/-- Modelled from the spec: `add_point(track, point)` appends the point to the
current (last) Segment. -/
def track_add_point {D : Type} : Track D → Trackpoint D → Track D
  | [], pt => [[pt]]
  | [seg], pt => [seg ++ [pt]]
  | seg :: seg2 :: rest, pt => seg :: track_add_point (seg2 :: rest) pt

/-- Modelled from the spec: `start_segment(track)` closes the current Segment
and opens a new empty one, even if the current Segment is empty. -/
def track_start_segment {D : Type} (trk : Track D) : Track D :=
  trk ++ [[]]

/-- A sample parser used to instantiate the ingest theorem: it accepts only the
line "1 2 3" and reads the point `(1, 2, 3)`. -/
def sampleScan3 (line : List Char) : Option (Trackpoint Int) :=
  if line = ['1', ' ', '2', ' ', '3', '\n'] then some ⟨1, 2, 3⟩ else none

/-! ## The Bounding-Box Computer and the Grid Binner

`track_heatmap` is declared in `track.h`; its implementation is not part of
the sources.  The definitions below follow sections 4.2 and 4.3 of the
specification, with the decimal coordinates taken as exact rationals. -/

/-- Modelled from the spec: minimum and maximum of the values of one axis over
every point of the track (`(0, 0)` for a track without points). -/
def axisBounds : List ℚ → ℚ × ℚ
  | [] => (0, 0)
  | x :: rest => rest.foldl (fun b y => (min b.1 y, max b.2 y)) (x, x)

/-- Modelled from the spec: the span of an axis, with the degenerate span
treated as the nominal span 1. -/
def axisSpan (b : ℚ × ℚ) : ℚ :=
  if b.2 - b.1 = 0 then 1 else b.2 - b.1

/-- Modelled from the spec: `clamp(x, lo, hi)`. -/
def clamp (x lo hi : Int) : Int :=
  max lo (min x hi)

/-- Modelled from the spec: the cell `(row, col)` of one point,
`col = clamp(floor(u * cols), 0, cols - 1)` and
`row = clamp(floor((1 - v) * rows), 0, rows - 1)` with the normalised position
`u = (lon - lon_min) / (lon_max - lon_min)`,
`v = (lat - lat_min) / (lat_max - lat_min)`. -/
def cellOf (rows cols : Int) (latB lonB : ℚ × ℚ) (pt : Trackpoint ℚ) : Nat × Nat :=
  let u := (pt.lon - lonB.1) / axisSpan lonB
  let v := (pt.lat - latB.1) / axisSpan latB
  ((clamp ⌊(1 - v) * (rows : ℚ)⌋ 0 (rows - 1)).toNat, (clamp ⌊u * (cols : ℚ)⌋ 0 (cols - 1)).toNat)

/-- Modelled from the spec: increment the count at index `j` of one row. -/
def bumpAt : List Nat → Nat → List Nat
  | [], _ => []
  | c :: cs, 0 => (c + 1) :: cs
  | c :: cs, j + 1 => c :: bumpAt cs j

/-- Modelled from the spec: increment `grid[row][col]` by 1. -/
def bumpCell : List (List Nat) → Nat → Nat → List (List Nat)
  | [], _, _ => []
  | r :: rs, 0, col => bumpAt r col :: rs
  | r :: rs, row + 1, col => r :: bumpCell rs row col

/-- Modelled from the spec: `rows = floor(height)`, `cols = floor(width)`,
minimum 1 each. -/
def gridDim (size : ℚ) : Int :=
  max 1 ⌊size⌋

/-- Modelled from the spec: the Grid Binner.  A `rows` by `cols` grid of zeros
in which every point of every segment increments its cell. -/
def binGrid (trk : Track ℚ) (width height : ℚ) : List (List Nat) :=
  let rows := gridDim height
  let cols := gridDim width
  let pts := trk.flatten
  let latB := axisBounds (pts.map Trackpoint.lat)
  let lonB := axisBounds (pts.map Trackpoint.lon)
  pts.foldl (fun grid pt => bumpCell grid (cellOf rows cols latB lonB pt).1
      (cellOf rows cols latB lonB pt).2)
    (List.replicate rows.toNat (List.replicate cols.toNat 0))

/-- Modelled from the spec: `track_heatmap(trk, width, height, &map, &rows,
&cols)`, returning the `int` grid and its two dimensions. -/
def track_heatmap (trk : Track ℚ) (width height : ℚ) : List (List Int) × Int × Int :=
  ((binGrid trk width height).map (List.map Int.ofNat), gridDim height, gridDim width)

/-! ## `main` as a whole -/

/-- What a run of `main` did: the calls it made to `track_heatmap` (track,
width, height) and the text it printed. -/
structure MainRun (T D : Type) where
  /-- Arguments of every call to `track_heatmap`, in order. -/
  heatmapCalls : List (T × D × D)
  /-- Text written to standard output (`none`: an unassigned character or an
  out-of-range read was printed). -/
  stdout : Option (List Char)

/-- How a run of `main` ends: with a configuration error, or by running to the
closing brace. -/
inductive Outcome (T D : Type) where
  | configError
  | completed (run : MainRun T D)

/-- The function `main`.  `width = atof(argv[1])`, `height = atof(argv[2])`,
`argv3` is the alphabet string, `n = (int) atof(argv[4])`, `stdin` is the text
on standard input, read through `char line[1000]`.  The track operations and
`track_heatmap` come from `track.h`. -/
def main {T D : Type} (track_create : T) (track_add_point : T → Trackpoint D → T)
    (track_start_segment : T → T) (track_heatmap : T → D → D → List (List Int) × Int × Int)
    (scan3 : List Char → Option (Trackpoint D))
    (width height : D) (argv3 : List Char) (n : Int) (stdin : List Char) :
    Outcome T D :=
  let trk := ingest track_create track_add_point track_start_segment scan3
    (fgetsBuffers 1000 stdin)
  let hm := track_heatmap trk width height
  Outcome.completed
    { heatmapCalls := [(trk, width, height)]
      stdout := render argv3 n hm.1 hm.2.1 hm.2.2 }

end Heatmap

namespace Heatmap

/-! ## `int` arithmetic -/

/-- A result inside the `int` range is left unchanged. -/
theorem wrapInt_of_inRange (x : Int) (hlo : INT_MIN ≤ x) (hhi : x ≤ INT_MAX) :
    wrapInt x = x := by
  unfold INT_MIN at hlo
  unfold INT_MAX at hhi
  unfold wrapInt
  omega

/-- Every `int` lies between `INT_MIN` and `INT_MAX`. -/
theorem wrapInt_range (x : Int) : INT_MIN ≤ wrapInt x ∧ wrapInt x ≤ INT_MAX := by
  unfold INT_MIN INT_MAX wrapInt
  omega

/-- With `n ≥ 1` and `(m - 1) * n ≤ INT_MAX`, the product `j * n` is exact for
every `0 ≤ j ≤ m - 1`. -/
theorem product_fits_pos (m n j : Int) (hn : 1 ≤ n) (hfit : (m - 1) * n ≤ INT_MAX)
    (hj0 : 0 ≤ j) (hj : j ≤ m - 1) :
    0 ≤ j * n ∧ j * n ≤ INT_MAX ∧ wrapInt (j * n) = j * n := by
  have h1 : 0 ≤ j * n := mul_nonneg hj0 (by omega)
  have h2 : j * n ≤ (m - 1) * n := mul_le_mul_of_nonneg_right hj (by omega)
  have h3 : j * n ≤ INT_MAX := le_trans h2 hfit
  exact ⟨h1, h3, wrapInt_of_inRange _ (by unfold INT_MIN; omega) h3⟩

/-- With `n ≤ 0` and `INT_MIN < (m - 1) * n`, the product `j * n` is exact and
strictly above `INT_MIN` for every `0 ≤ j ≤ m - 1`. -/
theorem product_fits_nonpos (m n j : Int) (hn : n ≤ 0) (hfit : INT_MIN < (m - 1) * n)
    (hj0 : 0 ≤ j) (hj : j ≤ m - 1) :
    j * n ≤ 0 ∧ INT_MIN < j * n ∧ wrapInt (j * n) = j * n := by
  have h1 : j * n ≤ 0 := mul_nonpos_of_nonneg_of_nonpos hj0 hn
  have h2 : (m - 1) * n ≤ j * n := mul_le_mul_of_nonpos_right hj hn
  have h3 : INT_MIN < j * n := lt_of_lt_of_le hfit h2
  exact ⟨h1, h3, wrapInt_of_inRange _ (le_of_lt h3) (by unfold INT_MAX; omega)⟩

/-! ## Shape of the scan -/

/-- A loop that overwrites its variable at every index where `P` holds ends
either unassigned, with `P` false everywhere, or with the value of the last
index where `P` holds. -/
theorem foldl_lastHit {α : Type} (P : Nat → Prop) [DecidablePred P] (f : Nat → α) (t : Nat) :
    ((List.range t).foldl (fun acc k => if P k then some (f k) else acc) none = none ∧
        ∀ k, k < t → ¬ P k) ∨
      ∃ k, k < t ∧ P k ∧
        (List.range t).foldl (fun acc k => if P k then some (f k) else acc) none = some (f k) ∧
        ∀ j, k < j → j < t → ¬ P j := by
  induction t with
  | zero => exact Or.inl ⟨rfl, fun k hk => absurd hk (Nat.not_lt_zero k)⟩
  | succ t ih =>
    rw [List.range_succ, List.foldl_append]
    simp only [List.foldl_cons, List.foldl_nil]
    by_cases hP : P t
    · refine Or.inr ⟨t, Nat.lt_succ_self t, hP, by simp [hP], ?_⟩
      intro j h1 h2
      omega
    · rcases ih with ⟨hnone, hall⟩ | ⟨k, hk, hPk, hres, hlast⟩
      · refine Or.inl ⟨by simp [hP, hnone], ?_⟩
        intro k hk
        rcases Nat.lt_succ_iff_lt_or_eq.1 hk with h | h
        · exact hall k h
        · rw [h]; exact hP
      · refine Or.inr ⟨k, Nat.lt_succ_of_lt hk, hPk, by simp [hP, hres], ?_⟩
        intro j h1 h2
        rcases Nat.lt_succ_iff_lt_or_eq.1 h2 with h | h
        · exact hlast j h1 h
        · rw [h]; exact hP

/-- A sequence that is at most `c` at index `k0` and above `c` at index
`k0 + d` crosses `c` between two consecutive indices. -/
theorem exists_crossing (a : Nat → Int) (c : Int) (k0 d : Nat) (h0 : a k0 ≤ c)
    (h1 : c < a (k0 + d)) :
    ∃ j, k0 ≤ j ∧ j < k0 + d ∧ a j ≤ c ∧ c < a (j + 1) := by
  induction d with
  | zero => exact absurd h1 (by simpa using h0)
  | succ d ih =>
    by_cases hmid : c < a (k0 + d)
    · obtain ⟨j, hj0, hj1, hj2, hj3⟩ := ih hmid
      exact ⟨j, hj0, by omega, hj2, hj3⟩
    · exact ⟨k0 + d, by omega, by omega, by omega, h1⟩

/-- Where the wrapped tier boundaries cross a non-negative count, the range
check of the loop succeeds. -/
theorem hit_of_crossing (n c : Int) (j : Nat) (hc : 0 ≤ c)
    (h1 : wrapInt ((j : Int) * n) ≤ c) (h2 : c < wrapInt (((j + 1 : Nat) : Int) * n)) :
    c ≥ wrapInt ((j : Int) * n) ∧ c ≤ wrapInt (wrapInt (((j : Int) + 1) * n) - 1) := by
  have hcast : (((j + 1 : Nat)) : Int) = (j : Int) + 1 := by push_cast; ring
  rw [hcast] at h2
  have hr := wrapInt_range (((j : Int) + 1) * n)
  have hw : wrapInt (wrapInt (((j : Int) + 1) * n) - 1) = wrapInt (((j : Int) + 1) * n) - 1 :=
    wrapInt_of_inRange _ (by unfold INT_MIN; omega) (by have := hr.2; omega)
  rw [hw]
  exact ⟨h1, by omega⟩

/-- The two ways the scan ends for `m ≥ 1` and a non-negative count: the final
check fires and position `m - 1` is taken, or it does not and the last
iteration `k < m - 1` whose range check succeeded is taken.  The scan never
leaves `cell_char` unassigned. -/
theorem tierScan_cases {α : Type} (sym : Int → α) (m n c : Int) (hm : 1 ≤ m) (hc : 0 ≤ c) :
    (c ≥ wrapInt ((m - 1) * n) ∧ tierScan sym m n c = some (sym (m - 1))) ∨
      (c < wrapInt ((m - 1) * n) ∧ ∃ k : Nat, (k : Int) < m - 1 ∧
        (c ≥ wrapInt ((k : Int) * n) ∧ c ≤ wrapInt (wrapInt (((k : Int) + 1) * n) - 1)) ∧
        tierScan sym m n c = some (sym k) ∧
        ∀ j : Nat, k < j → (j : Int) < m - 1 →
          ¬ (c ≥ wrapInt ((j : Int) * n) ∧ c ≤ wrapInt (wrapInt (((j : Int) + 1) * n) - 1))) := by
  by_cases hlast : c ≥ wrapInt ((m - 1) * n)
  · exact Or.inl ⟨hlast, by simp [tierScan, hlast]⟩
  · right
    have hlt : c < wrapInt ((m - 1) * n) := by omega
    have ht : (((m - 1).toNat : Nat) : Int) = m - 1 := Int.toNat_of_nonneg (by omega)
    have hscan : tierScan sym m n c
        = (List.range (m - 1).toNat).foldl
            (fun (acc : Option α) (k : Nat) => if c ≥ wrapInt ((k : Int) * n) ∧
              c ≤ wrapInt (wrapInt (((k : Int) + 1) * n) - 1) then some (sym k) else acc) none := by
      simp only [tierScan, if_neg hlast, tierLoop]
      rfl
    rcases foldl_lastHit
        (fun k : Nat => c ≥ wrapInt ((k : Int) * n) ∧
          c ≤ wrapInt (wrapInt (((k : Int) + 1) * n) - 1))
        (fun k : Nat => sym (k : Int)) (m - 1).toNat with ⟨_, hall⟩ | ⟨k, hk, hPk, hres, hlastk⟩
    · exfalso
      have h0 : wrapInt (((0 : Nat) : Int) * n) ≤ c := by
        have : wrapInt (((0 : Nat) : Int) * n) = 0 := by simp [wrapInt]
        omega
      have hend : c < wrapInt ((((0 + (m - 1).toNat : Nat)) : Int) * n) := by
        rw [Nat.zero_add, ht]; exact hlt
      obtain ⟨j, _, hj1, hj2, hj3⟩ :=
        exists_crossing (fun k : Nat => wrapInt ((k : Int) * n)) c 0 (m - 1).toNat h0 hend
      exact hall j (by omega) (hit_of_crossing n c j hc hj2 hj3)
    · refine ⟨hlt, k, by omega, hPk, by rw [hscan]; exact hres, ?_⟩
      intro j h1 h2
      exact hlastk j h1 (by omega)

/-- For `m ≥ 1` and a non-negative count the scan assigns the value of a
position between 0 and `m - 1`, whatever the bucket size. -/
theorem tierScan_assigns {α : Type} (sym : Int → α) (m n c : Int) (hm : 1 ≤ m) (hc : 0 ≤ c) :
    ∃ p : Int, 0 ≤ p ∧ p ≤ m - 1 ∧ tierScan sym m n c = some (sym p) := by
  rcases tierScan_cases sym m n c hm hc with ⟨_, h⟩ | ⟨_, k, hk, _, h, _⟩
  · exact ⟨m - 1, by omega, le_refl _, h⟩
  · exact ⟨k, Int.ofNat_nonneg k, by omega, h⟩

/-- For a nonempty alphabet and a non-negative count a character is always
printed, whatever the bucket size. -/
theorem cellChar_assigns (alphabet : List Char) (n c : Int) (hM : 1 ≤ alphabet.length)
    (hc : 0 ≤ c) : ∃ ch : Char, cellChar alphabet n c = some ch := by
  obtain ⟨p, hp0, hp1, hp⟩ :=
    tierScan_assigns (charAt alphabet) (alphabet.length : Int) n c (by omega) hc
  have hidx : p.toNat < alphabet.length := by omega
  refine ⟨alphabet.get ⟨_, hidx⟩, ?_⟩
  unfold cellChar
  rw [hp]
  simp [charAt, hp0, List.getElem?_eq_getElem hidx]

/-- The selected position never decreases when the count grows, whatever the
bucket size. -/
theorem tierScan_monotone {α : Type} (sym : Int → α) (m n c1 c2 : Int) (hm : 1 ≤ m)
    (h1 : 0 ≤ c1) (h12 : c1 ≤ c2) :
    ∃ p1 p2 : Int, tierScan sym m n c1 = some (sym p1) ∧ tierScan sym m n c2 = some (sym p2) ∧
      p1 ≤ p2 := by
  have h2 : 0 ≤ c2 := le_trans h1 h12
  rcases tierScan_cases sym m n c2 hm h2 with ⟨_, hs2⟩ | ⟨hlt2, k2, hk2, _, hs2, hlast2⟩
  · obtain ⟨p1, _, hp1, hs1⟩ := tierScan_assigns sym m n c1 hm h1
    exact ⟨p1, m - 1, hs1, hs2, hp1⟩
  · rcases tierScan_cases sym m n c1 hm h1 with ⟨hge1, _⟩ | ⟨_, k1, hk1, hhit1, hs1, _⟩
    · omega
    · refine ⟨k1, k2, hs1, hs2, ?_⟩
      have ht : (((m - 1).toNat : Nat) : Int) = m - 1 := Int.toNat_of_nonneg (by omega)
      have hk1t : k1 < (m - 1).toNat := by omega
      have h0 : wrapInt ((k1 : Int) * n) ≤ c2 := by have := hhit1.1; omega
      have hend : c2 < wrapInt ((((k1 + ((m - 1).toNat - k1) : Nat)) : Int) * n) := by
        have : k1 + ((m - 1).toNat - k1) = (m - 1).toNat := by omega
        rw [this, ht]; exact hlt2
      obtain ⟨j, hj0, hj1, hj2, hj3⟩ :=
        exists_crossing (fun k : Nat => wrapInt ((k : Int) * n)) c2 k1
          ((m - 1).toNat - k1) h0 hend
      have hhit : c2 ≥ wrapInt ((j : Int) * n) ∧
          c2 ≤ wrapInt (wrapInt (((j : Int) + 1) * n) - 1) := hit_of_crossing n c2 j h2 hj2 hj3
      have hjk : j ≤ k2 := by
        by_contra hcon
        exact hlast2 j (by omega) (by omega) hhit
      have : k1 ≤ k2 := le_trans hj0 hjk
      exact_mod_cast this

end Heatmap

namespace Heatmap

/-! ## The scan where no product overflows -/

/-- For `m ≥ 1`, `n ≥ 1`, `c ≥ 0` and `(m - 1) * n ≤ INT_MAX` the scan yields
the value of the clamped bucket `min (c / n) (m - 1)`. -/
theorem tierScan_eq_clamp {α : Type} (sym : Int → α) (m n c : Int) (hm : 1 ≤ m)
    (hn : 1 ≤ n) (hc : 0 ≤ c) (hfit : (m - 1) * n ≤ INT_MAX) :
    tierScan sym m n c = some (sym (min (c / n) (m - 1))) := by
  have hpos : 0 < n := by omega
  rcases tierScan_cases sym m n c hm hc with ⟨hge, hs⟩ | ⟨_, k, hk, hhit, hs, _⟩
  · rw [(product_fits_pos m n (m - 1) hn hfit (by omega) (le_refl _)).2.2] at hge
    have : m - 1 ≤ c / n := (Int.le_ediv_iff_mul_le hpos).2 hge
    rw [hs, min_eq_right this]
  · have hk0 : (0 : Int) ≤ (k : Int) := Int.ofNat_nonneg k
    have hA := product_fits_pos m n (k : Int) hn hfit hk0 (by omega)
    have hB := product_fits_pos m n ((k : Int) + 1) hn hfit (by omega) (by omega)
    have hC : wrapInt (((k : Int) + 1) * n - 1) = ((k : Int) + 1) * n - 1 :=
      wrapInt_of_inRange _ (by unfold INT_MIN; omega) (by omega)
    rw [hA.2.2, hB.2.2, hC] at hhit
    have hdiv : c / n = (k : Int) := by
      apply le_antisymm
      · have := (Int.ediv_lt_iff_lt_mul (a := c) (b := (k : Int) + 1) hpos).2 (by omega)
        omega
      · exact (Int.le_ediv_iff_mul_le hpos).2 hhit.1
    rw [hs, hdiv, min_eq_left (by omega)]

/-- The selected position is the clamped bucket where no product overflows. -/
theorem selectedTier_eq_clamp (m n c : Int) (hm : 1 ≤ m) (hn : 1 ≤ n) (hc : 0 ≤ c)
    (hfit : (m - 1) * n ≤ INT_MAX) :
    selectedTier m n c = some (min (c / n) (m - 1)) :=
  tierScan_eq_clamp id m n c hm hn hc hfit

/-- The clamped bucket is a valid index of a nonempty alphabet. -/
theorem clamp_index_valid (alphabet : List Char) (n c : Int) (hM : 1 ≤ alphabet.length)
    (hn : 1 ≤ n) (hc : 0 ≤ c) :
    0 ≤ min (c / n) ((alphabet.length : Int) - 1) ∧
      (min (c / n) ((alphabet.length : Int) - 1)).toNat < alphabet.length := by
  have h0 : 0 ≤ c / n := Int.ediv_nonneg hc (by omega)
  have h1 : min (c / n) ((alphabet.length : Int) - 1) ≤ (alphabet.length : Int) - 1 :=
    min_le_right _ _
  have h2 : 0 ≤ min (c / n) ((alphabet.length : Int) - 1) := le_min h0 (by omega)
  exact ⟨h2, by omega⟩

/-- The printed character is the alphabet entry at the clamped bucket where no
product overflows. -/
theorem cellChar_eq_clamp (alphabet : List Char) (n c : Int) (hM : 1 ≤ alphabet.length)
    (hn : 1 ≤ n) (hc : 0 ≤ c) (hfit : ((alphabet.length : Int) - 1) * n ≤ INT_MAX) :
    cellChar alphabet n c
      = alphabet[(min (c / n) ((alphabet.length : Int) - 1)).toNat]? := by
  have hv := clamp_index_valid alphabet n c hM hn hc
  unfold cellChar
  rw [tierScan_eq_clamp (charAt alphabet) _ n c (by omega) hn hc hfit]
  simp [charAt, hv.1]

/-- With a non-positive bucket size and a non-negative count no range check
succeeds in exact arithmetic. -/
theorem rangeCheck_nonpos_fails (n c : Int) (hn : n ≤ 0) (hc : 0 ≤ c) (k : Nat) :
    ¬ (c ≥ (k : Int) * n ∧ c ≤ ((k : Int) + 1) * n - 1) := by
  intro h
  have hk : (0 : Int) ≤ (k : Int) + 1 := by omega
  have := mul_nonpos_of_nonneg_of_nonpos hk hn
  omega

/-- With `n ≤ 0`, `c ≥ 0` and `INT_MIN < (m - 1) * n` no range check of the loop
succeeds in `int` arithmetic. -/
theorem tierStep_nonpos_fails (m n c : Int) (hn : n ≤ 0) (hc : 0 ≤ c)
    (hfit : INT_MIN < (m - 1) * n) (k : Nat) (hk : (k : Int) < m - 1) :
    ¬ (c ≥ wrapInt ((k : Int) * n) ∧ c ≤ wrapInt (wrapInt (((k : Int) + 1) * n) - 1)) := by
  intro h
  have hB := product_fits_nonpos m n ((k : Int) + 1) hn hfit (by omega) (by omega)
  have hC : wrapInt (((k : Int) + 1) * n - 1) = ((k : Int) + 1) * n - 1 :=
    wrapInt_of_inRange _ (by omega) (by unfold INT_MAX; omega)
  rw [hB.2.2, hC] at h
  omega

/-- With `n ≤ 0`, `c ≥ 0` and `INT_MIN < (m - 1) * n` the loop leaves `cell_char`
unassigned. -/
theorem tierLoop_nonpos {α : Type} (sym : Int → α) (m n c : Int) (hn : n ≤ 0) (hc : 0 ≤ c)
    (hfit : INT_MIN < (m - 1) * n) : tierLoop sym m n c = none := by
  have hloop : tierLoop sym m n c
      = (List.range (m - 1).toNat).foldl
          (fun (acc : Option α) (k : Nat) => if c ≥ wrapInt ((k : Int) * n) ∧
            c ≤ wrapInt (wrapInt (((k : Int) + 1) * n) - 1) then some (sym k) else acc) none :=
    rfl
  rcases foldl_lastHit
      (fun k : Nat => c ≥ wrapInt ((k : Int) * n) ∧
        c ≤ wrapInt (wrapInt (((k : Int) + 1) * n) - 1))
      (fun k : Nat => sym (k : Int)) (m - 1).toNat with ⟨hnone, _⟩ | ⟨k, hk, hPk, _, _⟩
  · rw [hloop]; exact hnone
  · exact absurd hPk (tierStep_nonpos_fails m n c hn hc hfit k (by omega))

/-- With `N ≤ 0`, `M ≥ 1`, a non-negative count and `INT_MIN < (M - 1) * N` the
final check fires and the scan assigns the last symbol. -/
theorem cellChar_nonpos_bucket (alphabet : List Char) (n c : Int)
    (hM : 1 ≤ alphabet.length) (hn : n ≤ 0) (hc : 0 ≤ c)
    (hfit : INT_MIN < ((alphabet.length : Int) - 1) * n) :
    c ≥ ((alphabet.length : Int) - 1) * n ∧ c ≥ wrapInt (((alphabet.length : Int) - 1) * n) ∧
      ∃ ch : Char, alphabet[alphabet.length - 1]? = some ch ∧
        cellChar alphabet n c = some ch := by
  have hP := product_fits_nonpos (alphabet.length : Int) n ((alphabet.length : Int) - 1) hn hfit
    (by omega) (le_refl _)
  have hexact : c ≥ ((alphabet.length : Int) - 1) * n := by omega
  have hfinal : c ≥ wrapInt (((alphabet.length : Int) - 1) * n) := by rw [hP.2.2]; exact hexact
  have hidx : alphabet.length - 1 < alphabet.length := by omega
  refine ⟨hexact, hfinal, alphabet.get ⟨_, hidx⟩, List.getElem?_eq_getElem hidx, ?_⟩
  have hnn : (0 : Int) ≤ (alphabet.length : Int) - 1 := by omega
  have htn : ((alphabet.length : Int) - 1).toNat = alphabet.length - 1 := by omega
  unfold cellChar tierScan
  rw [if_pos hfinal]
  simp [charAt, hnn, htn, List.getElem?_eq_getElem hidx]

end Heatmap

namespace Heatmap

/-! ## Claims about the symbol scan -/

/-- C1 fails on the code: with alphabet "abc" and bucket size `2^30` the product
`(m - 1) * n` wraps to `INT_MIN`, the final check fires, and count 0 is printed
as 'c' although `alphabet[min (0 / N) (M - 1)]` is 'a'. -/
theorem scan_overflow_prints_last_symbol :
    cellChar ['a', 'b', 'c'] 1073741824 0 = some 'c' ∧
      ['a', 'b', 'c'][(min ((0 : Int) / 1073741824)
        (((['a', 'b', 'c'] : List Char).length : Int) - 1)).toNat]? = some 'a' := by
  decide

/-- C1, amended: for an alphabet of length `M ≥ 1`, a bucket size `N ≥ 1` and a
count `c ≥ 0`, the scan of `main` always assigns a symbol, and whenever
`(M - 1) * N ≤ INT_MAX` (no `int` product of the scan overflows) that symbol is
`alphabet[min (floor (c / N)) (M - 1)]` (for `N > 0` the integer quotient
`c / N` is the floor). -/
theorem scan_assigns_clamped_bucket_symbol (alphabet : List Char) (n c : Int)
    (hM : 1 ≤ alphabet.length) (hn : 1 ≤ n) (hc : 0 ≤ c) :
    ∃ ch : Char, cellChar alphabet n c = some ch ∧
      (((alphabet.length : Int) - 1) * n ≤ INT_MAX →
        alphabet[(min (c / n) ((alphabet.length : Int) - 1)).toNat]? = some ch) := by
  obtain ⟨ch, hch⟩ := cellChar_assigns alphabet n c hM hc
  refine ⟨ch, hch, ?_⟩
  intro hfit
  rw [← cellChar_eq_clamp alphabet n c hM hn hc hfit]
  exact hch

/-- Instance of the amended C1: alphabet "abc", bucket size 3, count 4 gives
'b'. -/
theorem scan_assigns_clamped_bucket_symbol_witness :
    cellChar ['a', 'b', 'c'] 3 4 = some 'b' ∧
      ['a', 'b', 'c'][(min ((4 : Int) / 3)
        (((['a', 'b', 'c'] : List Char).length : Int) - 1)).toNat]? = some 'b' := by
  obtain ⟨ch, h1, h2⟩ :=
    scan_assigns_clamped_bucket_symbol ['a', 'b', 'c'] 3 4 (by decide) (by decide) (by decide)
  have h3 := h2 (by decide)
  have hb : ch = 'b' := (Option.some.inj h3).symm
  subst hb
  exact ⟨h1, h3⟩

/-- C2 fails on the code: with `M = 4` and `N = INT_MAX` the count 0 lies in the
range of tier 0, yet the products of iteration `k = 2` wrap and the scan
selects position 2. -/
theorem scan_overflow_selects_other_tier :
    selectedTier 4 2147483647 0 = some 2 ∧
      ((0 : Int) * 2147483647 ≤ 0 ∧ (0 : Int) ≤ (0 + 1) * 2147483647 - 1) ∧
      ¬ (selectedTier 4 2147483647 0 = some 0 ↔
        (0 : Int) * 2147483647 ≤ 0 ∧ (0 : Int) ≤ (0 + 1) * 2147483647 - 1) := by
  decide

/-- C2, amended: for `M ≥ 1`, `N ≥ 1`, `c ≥ 0` and `(M - 1) * N ≤ INT_MAX` (no
`int` product of the scan overflows), the scan selects position `k`
(`0 ≤ k < M - 1`) exactly when `k*N ≤ c ≤ (k+1)*N - 1`, and selects the last
position `M - 1` exactly when `c ≥ (M - 1)*N`. -/
theorem scan_tier_ranges (m n c : Int) (hm : 1 ≤ m) (hn : 1 ≤ n) (hc : 0 ≤ c)
    (hfit : (m - 1) * n ≤ INT_MAX) :
    (∀ k : Int, 0 ≤ k → k < m - 1 →
        (selectedTier m n c = some k ↔ k * n ≤ c ∧ c ≤ (k + 1) * n - 1)) ∧
      (selectedTier m n c = some (m - 1) ↔ c ≥ (m - 1) * n) := by
  have hpos : 0 < n := by omega
  rw [selectedTier_eq_clamp m n c hm hn hc hfit]
  constructor
  · intro k _ hk
    have hle : k ≤ c / n ↔ k * n ≤ c := Int.le_ediv_iff_mul_le hpos
    have hlt : c / n < k + 1 ↔ c < (k + 1) * n := Int.ediv_lt_iff_lt_mul hpos
    rw [Option.some_inj]
    constructor
    · intro h
      rcases min_choice (c / n) (m - 1) with h1 | h1
      · rw [h1] at h
        exact ⟨hle.1 (by omega), by have := hlt.1 (by omega); omega⟩
      · omega
    · rintro ⟨h1, h2⟩
      have h3 := hle.2 h1
      have h4 := hlt.2 (by omega)
      rw [min_eq_left (by omega)]
      omega
  · have hle : m - 1 ≤ c / n ↔ (m - 1) * n ≤ c := Int.le_ediv_iff_mul_le hpos
    rw [Option.some_inj]
    constructor
    · intro h
      exact hle.1 (by rw [← h]; exact min_le_left _ _)
    · intro h
      exact min_eq_right (hle.2 h)

/-- Instance of the amended C2 with `M = 3`, `N = 3`, `c = 4`. -/
theorem scan_tier_ranges_witness :
    (∀ k : Int, 0 ≤ k → k < 3 - 1 →
        (selectedTier 3 3 4 = some k ↔ k * 3 ≤ 4 ∧ 4 ≤ (k + 1) * 3 - 1)) ∧
      (selectedTier 3 3 4 = some (3 - 1) ↔ (4 : Int) ≥ (3 - 1) * 3) :=
  scan_tier_ranges 3 3 4 (by decide) (by decide) (by decide) (by decide)

/-- C3 (monotonic symbol mapping): for fixed `M ≥ 1` and `N ≥ 1` and counts
`0 ≤ c1 ≤ c2`, the position selected for `c1` is at most the one selected for
`c2`.  This holds in `int` arithmetic for every bucket size, overflowing
products included. -/
theorem scan_monotone (m n c1 c2 : Int) (hm : 1 ≤ m) (hn : 1 ≤ n) (h1 : 0 ≤ c1)
    (h12 : c1 ≤ c2) :
    ∃ p1 p2 : Int, selectedTier m n c1 = some p1 ∧ selectedTier m n c2 = some p2 ∧ p1 ≤ p2 :=
  have _ := hn
  tierScan_monotone id m n c1 c2 hm h1 h12

/-- Instance of C3 with `M = 4`, `N = INT_MAX`, counts 0 and `INT_MAX - 1`, where
the products overflow. -/
theorem scan_monotone_witness :
    ∃ p1 p2 : Int, selectedTier 4 2147483647 0 = some p1 ∧
      selectedTier 4 2147483647 2147483646 = some p2 ∧ p1 ≤ p2 :=
  scan_monotone 4 2147483647 0 2147483646 (by decide) (by decide) (by decide) (by decide)

/-- C5: with a one-symbol alphabet, every bucket size `N ≥ 1` and every count
`c ≥ 0` (zero or not) gives that single symbol. -/
theorem scan_single_symbol (s : Char) (n c : Int) (hn : 1 ≤ n) (hc : 0 ≤ c) :
    cellChar [s] n c = some s := by
  have _ := hn
  have h0 : wrapInt ((((([s] : List Char).length : Nat) : Int) - 1) * n) = 0 := by
    simp [wrapInt]
  unfold cellChar tierScan
  rw [h0, if_pos hc]
  simp [charAt]

/-- Instance of C5: alphabet "x", bucket size 2, count 7. -/
theorem scan_single_symbol_witness : cellChar ['x'] 2 7 = some 'x' :=
  scan_single_symbol 'x' 2 7 (by decide) (by decide)

/-- C6 (end-to-end scenario 2): with alphabet ".#" and `N = 1`, count 0 renders
as '.', and every count `c ≥ 1` renders as '#'. -/
theorem scan_dot_hash :
    cellChar ['.', '#'] 1 0 = some '.' ∧
      ∀ c : Int, 1 ≤ c → cellChar ['.', '#'] 1 c = some '#' := by
  refine ⟨by decide, ?_⟩
  intro c hc
  have h1 : wrapInt ((((['.', '#'] : List Char).length : Int) - 1) * 1) = 1 := by decide
  unfold cellChar tierScan
  rw [h1, if_pos hc]
  rfl

/-- Instance of C6: count 5 renders as '#'. -/
theorem scan_dot_hash_witness : cellChar ['.', '#'] 1 5 = some '#' :=
  scan_dot_hash.2 5 (by decide)

/-- C10: with a non-positive bucket size `N ≤ 0`, an alphabet of length
`M ≥ 1` and a count `c ≥ 0`, where no product overflows
(`INT_MIN < (M - 1) * N`), no iteration of the tier loop assigns a symbol, in
exact arithmetic and as the code computes the range check, the final-tier
check fires, and the cell is rendered as the last symbol `alphabet[M - 1]`. -/
theorem scan_nonpositive_bucket_last_symbol (alphabet : List Char) (n c : Int)
    (hM : 1 ≤ alphabet.length) (hn : n ≤ 0) (hc : 0 ≤ c)
    (hfit : INT_MIN < ((alphabet.length : Int) - 1) * n) :
    (∀ k : Nat, ¬ (c ≥ (k : Int) * n ∧ c ≤ ((k : Int) + 1) * n - 1)) ∧
      (∀ k : Nat, (k : Int) < (alphabet.length : Int) - 1 →
        ¬ (c ≥ wrapInt ((k : Int) * n) ∧ c ≤ wrapInt (wrapInt (((k : Int) + 1) * n) - 1))) ∧
      tierLoop (charAt alphabet) (alphabet.length : Int) n c = none ∧
      c ≥ ((alphabet.length : Int) - 1) * n ∧
      c ≥ wrapInt (((alphabet.length : Int) - 1) * n) ∧
      ∃ ch : Char, alphabet[alphabet.length - 1]? = some ch ∧
        cellChar alphabet n c = some ch := by
  have h := cellChar_nonpos_bucket alphabet n c hM hn hc hfit
  exact ⟨rangeCheck_nonpos_fails n c hn hc,
    tierStep_nonpos_fails (alphabet.length : Int) n c hn hc hfit,
    tierLoop_nonpos _ _ n c hn hc hfit, h.1, h.2.1, h.2.2⟩

/-- Instance of C10: alphabet "abc", bucket size -2, count 5 gives 'c'. -/
theorem scan_nonpositive_bucket_last_symbol_witness :
    tierLoop (charAt ['a', 'b', 'c']) ((['a', 'b', 'c'].length : Nat) : Int) (-2) 5 = none ∧
      (5 : Int) ≥ wrapInt ((((['a', 'b', 'c'].length : Nat) : Int) - 1) * (-2)) ∧
      ∃ ch : Char, ['a', 'b', 'c'][['a', 'b', 'c'].length - 1]? = some ch ∧
        cellChar ['a', 'b', 'c'] (-2) 5 = some ch :=
  have h := scan_nonpositive_bucket_last_symbol ['a', 'b', 'c'] (-2) 5 (by decide) (by decide)
    (by decide) (by decide)
  ⟨h.2.2.1, h.2.2.2.2.1, h.2.2.2.2.2⟩

end Heatmap

namespace Heatmap

/-! ## The rendering loops -/

/-- A list is recovered by reading it at every index in order. -/
theorem map_range_getD {α β : Type} (f : α → β) (d : α) (l : List α) :
    (List.range l.length).map (fun j => f (l.getD j d)) = l.map f := by
  apply List.ext_getElem
  · simp
  · intro i h1 h2
    have hi : i < l.length := by simpa using h2
    simp [List.getElem?_eq_getElem hi]

/-- The inner loop over in-range column indices prints the symbol of each cell
read, when every cell of the row gets a symbol `f cell`. -/
theorem printCells_eq_map (alphabet : List Char) (n : Int) (row : List Int) (f : Int → Char)
    (hf : ∀ c ∈ row, cellChar alphabet n c = some (f c)) (js : List Nat)
    (hjs : ∀ j ∈ js, j < row.length) :
    printCells alphabet n row js = some (js.map (fun j => f (row.getD j 0))) := by
  induction js with
  | nil => rfl
  | cons j js ih =>
    have hj : j < row.length := hjs j (List.mem_cons_self _ _)
    have hget : row[j]? = some row[j] := List.getElem?_eq_getElem hj
    have hmem : row[j] ∈ row := List.getElem_mem hj
    rw [printCells, hget]
    simp only [hf _ hmem, ih (fun k hk => hjs k (List.mem_cons_of_mem _ hk))]
    simp [hget]

/-- The outer loop over in-range row indices prints one line per row read. -/
theorem printRows_eq_map (alphabet : List Char) (n : Int) (map : List (List Int)) (cols : Int)
    (f : Int → Char) (hf : ∀ row ∈ map, ∀ c ∈ row, cellChar alphabet n c = some (f c))
    (hcols : ∀ row ∈ map, (row.length : Int) = cols) (rowIdx : List Nat)
    (hidx : ∀ i ∈ rowIdx, i < map.length) :
    printRows alphabet n map cols rowIdx
      = some ((rowIdx.map (fun i => (map.getD i []).map f ++ ['\n'])).flatten) := by
  induction rowIdx with
  | nil => rfl
  | cons i rest ih =>
    have hi : i < map.length := hidx i (List.mem_cons_self _ _)
    have hget : map[i]? = some map[i] := List.getElem?_eq_getElem hi
    have hmem : map[i] ∈ map := List.getElem_mem hi
    have hlen : cols.toNat = map[i].length := by have := hcols _ hmem; omega
    rw [printRows, hget]
    simp only [hlen, printCells_eq_map alphabet n map[i] f (hf _ hmem) _
      (fun j hj => List.mem_range.1 hj), map_range_getD,
      ih (fun k hk => hidx k (List.mem_cons_of_mem _ hk))]
    simp [hget]

/-- The two loops print the grid row by row: the symbols of each row followed by
a line break. -/
theorem render_eq_map (alphabet : List Char) (n : Int) (map : List (List Int)) (rows cols : Int)
    (f : Int → Char) (hf : ∀ row ∈ map, ∀ c ∈ row, cellChar alphabet n c = some (f c))
    (hrows : (map.length : Int) = rows) (hcols : ∀ row ∈ map, (row.length : Int) = cols) :
    render alphabet n map rows cols
      = some ((map.map (fun row => row.map f ++ ['\n'])).flatten) := by
  have hlen : rows.toNat = map.length := by omega
  unfold render
  rw [hlen, printRows_eq_map alphabet n map cols f hf hcols _ (fun i hi => List.mem_range.1 hi),
    map_range_getD (fun row => row.map f ++ ['\n']) [] map]

end Heatmap

namespace Heatmap

/-- C7: for a count grid of `rows` by `cols` non-negative cells, `M ≥ 1` and
`N ≥ 1`, the rendering loop prints `rows` lines in row order, each made of
`cols` symbols followed by one line break, and the `j`-th symbol of line `i` is
the one the scan gives for `map[i][j]`: the symbol grid has the dimensions of
the count grid.  The symbol of a cell is the one the scan assigns in `int`
arithmetic. -/
theorem render_prints_symbol_grid (alphabet : List Char) (n : Int) (map : List (List Int))
    (rows cols : Int) (hM : 1 ≤ alphabet.length) (hn : 1 ≤ n)
    (hrows : (map.length : Int) = rows) (hcols : ∀ row ∈ map, (row.length : Int) = cols)
    (hcells : ∀ row ∈ map, ∀ c ∈ row, 0 ≤ c) :
    ∃ symbols : List (List Char),
      render alphabet n map rows cols
          = some ((symbols.map (fun line => line ++ ['\n'])).flatten) ∧
        (symbols.length : Int) = rows ∧
        (∀ line ∈ symbols, (line.length : Int) = cols) ∧
        List.Forall₂ (List.Forall₂ (fun c ch => cellChar alphabet n c = some ch)) map symbols := by
  have _ := hn
  have hf : ∀ row ∈ map, ∀ c ∈ row,
      cellChar alphabet n c = some ((cellChar alphabet n c).getD ' ') := by
    intro row hrow c hc
    obtain ⟨ch, hch⟩ := cellChar_assigns alphabet n c hM (hcells row hrow c hc)
    rw [hch]; rfl
  refine ⟨map.map (List.map (fun c => (cellChar alphabet n c).getD ' ')), ?_, ?_, ?_, ?_⟩
  · rw [render_eq_map alphabet n map rows cols _ hf hrows hcols, List.map_map]
    rfl
  · simpa using hrows
  · intro line hline
    obtain ⟨row, hrow, rfl⟩ := List.mem_map.1 hline
    simpa using hcols row hrow
  · rw [List.forall₂_map_right_iff, List.forall₂_same]
    intro row hrow
    rw [List.forall₂_map_right_iff, List.forall₂_same]
    exact hf row hrow

/-- Instance of C7: a 1 by 3 grid rendered with alphabet "abc" and bucket size
`2^30`, where the products of the scan overflow. -/
theorem render_prints_symbol_grid_witness :
    ∃ symbols : List (List Char),
      render ['a', 'b', 'c'] 1073741824 [[0, 1073741824, 2147483647]] 1 3
          = some ((symbols.map (fun line => line ++ ['\n'])).flatten) ∧
        (symbols.length : Int) = 1 ∧
        (∀ line ∈ symbols, (line.length : Int) = 3) ∧
        List.Forall₂ (List.Forall₂ (fun c ch => cellChar ['a', 'b', 'c'] 1073741824 c = some ch))
          [[0, 1073741824, 2147483647]] symbols :=
  render_prints_symbol_grid ['a', 'b', 'c'] 1073741824 [[0, 1073741824, 2147483647]] 1 3
    (by decide) (by decide) (by decide) (by decide) (by decide)

end Heatmap


namespace Heatmap

/-! ## The ingest loop -/

/-- When a buffer that starts with a line break never parses as a point, one
pass of the loop body does what the record of the line says. -/
theorem ingestStep_eq_record {T D : Type} (add : T → Trackpoint D → T) (brk : T → T)
    (scan3 : List Char → Option (Trackpoint D)) (trk : T) (line : List Char)
    (hblank : line.head? = some '\n' → scan3 line = none) :
    ingestStep add brk scan3 trk line
      = match recordOf scan3 line with
        | some r => applyRecord add brk trk r
        | none => trk := by
  unfold ingestStep recordOf
  by_cases hb : line.head? = some '\n'
  · simp [hb, hblank hb, applyRecord]
  · cases hs : scan3 line <;> simp [hb, applyRecord]

/-- The loop applies the records of the lines, in input order. -/
theorem ingest_eq_foldl_records {T D : Type} (add : T → Trackpoint D → T) (brk : T → T)
    (scan3 : List Char → Option (Trackpoint D)) (lines : List (List Char))
    (hblank : ∀ l ∈ lines, l.head? = some '\n' → scan3 l = none) (trk : T) :
    lines.foldl (ingestStep add brk scan3) trk
      = (lines.filterMap (recordOf scan3)).foldl (applyRecord add brk) trk := by
  induction lines generalizing trk with
  | nil => rfl
  | cons line rest ih =>
    rw [List.foldl_cons, ih (fun l hl => hblank l (List.mem_cons_of_mem _ hl)),
      ingestStep_eq_record add brk scan3 trk line (hblank line (List.mem_cons_self _ _))]
    cases hr : recordOf scan3 line <;> simp [List.filterMap_cons, hr]

/-- Adding a point to a track with at least one segment extends its last
segment. -/
theorem track_add_point_append {D : Type} (segs : List (List (Trackpoint D)))
    (last : List (Trackpoint D)) (pt : Trackpoint D) :
    track_add_point (segs ++ [last]) pt = segs ++ [last ++ [pt]] := by
  induction segs with
  | nil => rfl
  | cons s rest ih =>
    cases rest with
    | nil => rfl
    | cons s2 rest2 =>
      have : track_add_point (s :: s2 :: rest2 ++ [last]) pt
          = s :: track_add_point (s2 :: rest2 ++ [last]) pt := rfl
      rw [this, ih]
      rfl

/-- Ingesting lines none of which is blank only extends the current segment, by
the points that parse, in order. -/
theorem ingest_block {D : Type} (scan3 : List Char → Option (Trackpoint D))
    (block : List (List Char)) (hno : ∀ l ∈ block, l.head? ≠ some '\n')
    (segs : List (List (Trackpoint D))) (last : List (Trackpoint D)) :
    block.foldl (ingestStep track_add_point track_start_segment scan3) (segs ++ [last])
      = segs ++ [last ++ block.filterMap scan3] := by
  induction block generalizing last with
  | nil => simp
  | cons line rest ih =>
    have hl : line.head? ≠ some '\n' := hno line (List.mem_cons_self _ _)
    have hrest : ∀ l ∈ rest, l.head? ≠ some '\n' :=
      fun l h => hno l (List.mem_cons_of_mem _ h)
    rw [List.foldl_cons]
    cases hs : scan3 line with
    | none =>
      have : ingestStep track_add_point track_start_segment scan3 (segs ++ [last]) line
          = segs ++ [last] := by simp [ingestStep, hs, hl]
      rw [this, ih hrest, List.filterMap_cons, hs]
    | some pt =>
      have : ingestStep track_add_point track_start_segment scan3 (segs ++ [last]) line
          = segs ++ [last ++ [pt]] := by simp [ingestStep, hs, track_add_point_append]
      rw [this, ih hrest, List.filterMap_cons, hs, List.append_assoc]
      rfl

/-- Segment count and point sequence of the track after ingesting `lines` into a
track that has a current segment. -/
theorem ingest_segments {D : Type} (scan3 : List Char → Option (Trackpoint D))
    (lines : List (List Char))
    (hblank : ∀ l ∈ lines, l.head? = some '\n' → scan3 l = none)
    (segs : List (List (Trackpoint D)))
    (last : List (Trackpoint D)) :
    (lines.foldl (ingestStep track_add_point track_start_segment scan3) (segs ++ [last])).length
        = segs.length + 1 + lines.countP (fun l => decide (l.head? = some '\n')) ∧
      (lines.foldl (ingestStep track_add_point track_start_segment scan3)
          (segs ++ [last])).flatten
        = (segs ++ [last]).flatten ++ lines.filterMap scan3 := by
  induction lines generalizing segs last with
  | nil => simp
  | cons line rest ih =>
    rw [List.foldl_cons]
    have ih := ih (fun l hl => hblank l (List.mem_cons_of_mem _ hl))
    by_cases hb : line.head? = some '\n'
    · have hs := hblank line (List.mem_cons_self _ _) hb
      have : ingestStep track_add_point track_start_segment scan3 (segs ++ [last]) line
          = (segs ++ [last]) ++ [[]] := by simp [ingestStep, hs, hb, track_start_segment]
      rw [this]
      obtain ⟨h1, h2⟩ := ih (segs ++ [last]) []
      refine ⟨?_, ?_⟩
      · rw [h1, List.countP_cons]; simp [hb]; omega
      · rw [h2, List.filterMap_cons, hs]; simp
    · cases hs : scan3 line with
      | none =>
        have : ingestStep track_add_point track_start_segment scan3 (segs ++ [last]) line
            = segs ++ [last] := by simp [ingestStep, hs, hb]
        rw [this]
        obtain ⟨h1, h2⟩ := ih segs last
        refine ⟨?_, ?_⟩
        · rw [h1, List.countP_cons]; simp [hb]
        · rw [h2, List.filterMap_cons, hs]
      | some pt =>
        have : ingestStep track_add_point track_start_segment scan3 (segs ++ [last]) line
            = segs ++ [last ++ [pt]] := by simp [ingestStep, hs, track_add_point_append]
        rw [this]
        obtain ⟨h1, h2⟩ := ih segs (last ++ [pt])
        refine ⟨?_, ?_⟩
        · rw [h1, List.countP_cons]; simp [hb]
        · rw [h2, List.filterMap_cons, hs]; simp

end Heatmap

namespace Heatmap

/-! ## Reading the input through the line buffer -/

/-- Characters other than the line break that still fit in the buffer are
appended to it. -/
theorem fgetsFrom_append (cap : Nat) (pre : List Char) (hpre : ∀ ch ∈ pre, ch ≠ '\n')
    (cur rest : List Char) (hfit : cur.length + pre.length < cap) :
    fgetsFrom cap cur (pre ++ rest) = fgetsFrom cap (cur ++ pre) rest := by
  induction pre generalizing cur with
  | nil => simp
  | cons ch pre ih =>
    have hch : ch ≠ '\n' := hpre ch (List.mem_cons_self _ _)
    have hlen : ¬ cur.length + 1 = cap := by simp only [List.length_cons] at hfit; omega
    have hstep : fgetsFrom cap cur (ch :: (pre ++ rest))
        = fgetsFrom cap (cur ++ [ch]) (pre ++ rest) := by
      simp [fgetsFrom, hch, hlen]
    rw [List.cons_append, hstep,
      ih (fun c hc => hpre c (List.mem_cons_of_mem _ hc)) (cur ++ [ch])
        (by simp only [List.length_append, List.length_cons, List.length_nil] at hfit ⊢; omega)]
    simp

/-- A line shorter than the buffer capacity is returned whole, line break
included. -/
theorem fgetsFrom_line (cap : Nat) (l : List Char) (hl : ∀ ch ∈ l, ch ≠ '\n')
    (hlen : l.length < cap) (rest : List Char) :
    fgetsFrom cap [] (l ++ '\n' :: rest) = (l ++ ['\n']) :: fgetsFrom cap [] rest := by
  rw [fgetsFrom_append cap l hl [] _ (by simpa using hlen)]
  simp [fgetsFrom]

/-- An input whose lines are all shorter than the buffer capacity is read one
line per buffer. -/
theorem fgetsFrom_inputText (cap : Nat) (lines : List (List Char)) (lastLine : List Char)
    (hlines : ∀ l ∈ lines, (∀ ch ∈ l, ch ≠ '\n') ∧ l.length < cap)
    (hlast : (∀ ch ∈ lastLine, ch ≠ '\n') ∧ lastLine.length < cap) :
    fgetsFrom cap [] (inputText lines lastLine) = inputLines lines lastLine := by
  induction lines with
  | nil =>
    have := fgetsFrom_append cap lastLine hlast.1 [] [] (by simpa using hlast.2)
    simp only [List.append_nil, List.nil_append] at this
    simp only [inputText, inputLines, List.map_nil, List.flatten_nil, List.nil_append]
    rw [this]
    cases lastLine <;> simp [fgetsFrom]
  | cons l rest ih =>
    have hl := hlines l (List.mem_cons_self _ _)
    have ih := ih (fun x hx => hlines x (List.mem_cons_of_mem _ hx))
    have htext : inputText (l :: rest) lastLine = l ++ '\n' :: inputText rest lastLine := by
      simp [inputText]
    rw [htext, fgetsFrom_line cap l hl.1 hl.2, ih]
    simp [inputLines]

/-- In the buffers of such an input the line break occurs only as the last
character. -/
theorem inputLines_blank (lines : List (List Char)) (lastLine : List Char)
    (hlines : ∀ l ∈ lines, ∀ ch ∈ l, ch ≠ '\n') (hlast : ∀ ch ∈ lastLine, ch ≠ '\n') :
    ∀ b ∈ inputLines lines lastLine, b.head? = some '\n' → b = ['\n'] := by
  intro b hb hhead
  have hcase : (∃ l ∈ lines, b = l ++ ['\n']) ∨ (b = lastLine ∧ lastLine ≠ []) := by
    unfold inputLines at hb
    rcases List.mem_append.1 hb with h | h
    · obtain ⟨l, hl, rfl⟩ := List.mem_map.1 h
      exact Or.inl ⟨l, hl, rfl⟩
    · by_cases he : lastLine = []
      · simp [he] at h
      · simp only [if_neg he, List.mem_singleton] at h
        exact Or.inr ⟨h, he⟩
  rcases hcase with ⟨l, hl, rfl⟩ | ⟨rfl, hne⟩
  · cases l with
    | nil => rfl
    | cons x xs =>
      have : x = '\n' := by simpa using hhead
      exact absurd this (hlines _ hl x (List.mem_cons_self _ _))
  · cases b with
    | nil => exact absurd rfl hne
    | cons x xs =>
      have : x = '\n' := by simpa using hhead
      exact absurd this (hlast x (List.mem_cons_self _ _))

/-- The buffers that start with the line break are the buffers of the empty
lines. -/
theorem countP_blank_inputLines (lines : List (List Char)) (lastLine : List Char)
    (hlines : ∀ l ∈ lines, ∀ ch ∈ l, ch ≠ '\n') (hlast : ∀ ch ∈ lastLine, ch ≠ '\n') :
    (inputLines lines lastLine).countP (fun b => decide (b.head? = some '\n'))
      = lines.countP (fun l => decide (l = [])) := by
  induction lines with
  | nil =>
    cases lastLine with
    | nil => simp [inputLines]
    | cons x xs =>
      have : x ≠ '\n' := hlast x (List.mem_cons_self _ _)
      simp [inputLines, this]
  | cons l rest ih =>
    have ih := ih (fun x hx => hlines x (List.mem_cons_of_mem _ hx))
    have hcons : inputLines (l :: rest) lastLine = (l ++ ['\n']) :: inputLines rest lastLine := by
      simp [inputLines]
    rw [hcons, List.countP_cons, List.countP_cons, ih]
    cases l with
    | nil => simp
    | cons x xs =>
      have : x ≠ '\n' := hlines _ (List.mem_cons_self _ _) x (List.mem_cons_self _ _)
      simp [this]

end Heatmap

namespace Heatmap

/-- A buffer without line break does not start with the line break. -/
theorem head_ne_newline (b : List Char) (hb : ∀ ch ∈ b, ch ≠ '\n') : b.head? ≠ some '\n' := by
  cases b with
  | nil => simp
  | cons x xs =>
    have : x ≠ '\n' := hb x (List.mem_cons_self _ _)
    simpa using this

/-- A line of exactly as many characters as the buffer holds is returned without
its line break, which comes back alone in the next buffer. -/
theorem fgetsFrom_full_line (cap : Nat) (l : List Char) (hl : ∀ ch ∈ l, ch ≠ '\n')
    (hlen : l.length = cap) (hcap : 1 ≤ cap) (rest : List Char) :
    fgetsFrom cap [] (l ++ '\n' :: rest) = l :: ['\n'] :: fgetsFrom cap [] rest := by
  rcases List.eq_nil_or_concat l with h | ⟨init, x, h⟩
  · rw [h] at hlen
    simp at hlen
    omega
  · rw [List.concat_eq_append] at h
    subst h
    have hinit : ∀ ch ∈ init, ch ≠ '\n' := fun ch hch => hl ch (List.mem_append_left _ hch)
    have hx : x ≠ '\n' := hl x (by simp)
    have hlen1 : init.length + 1 = cap := by simpa using hlen
    rw [List.append_assoc, fgetsFrom_append cap init hinit [] _ (by simp; omega)]
    simp [fgetsFrom, hx, hlen1]

/-- The loop on an input of one line that fills the buffer exactly and does not
parse: the track gets a second segment. -/
theorem ingest_full_line {D : Type} (l : List Char) (hl : ∀ ch ∈ l, ch ≠ '\n')
    (hlen : l.length = 999) :
    fgetsBuffers 1000 (inputText [l] []) = [l, ['\n']] ∧
      ingest (track_create : Track D) track_add_point track_start_segment (fun _ => none)
          (fgetsBuffers 1000 (inputText [l] []))
        = [[], []] := by
  have hbuf : fgetsBuffers 1000 (inputText [l] []) = [l, ['\n']] := by
    have htext : inputText [l] [] = l ++ '\n' :: [] := by simp [inputText]
    rw [show fgetsBuffers 1000 (inputText [l] []) = fgetsFrom 999 [] (inputText [l] []) from rfl,
      htext, fgetsFrom_full_line 999 l hl hlen (by omega)]
    simp [fgetsFrom]
  refine ⟨hbuf, ?_⟩
  rw [hbuf]
  simp [ingest, ingestStep, head_ne_newline l hl, track_create, track_start_segment]

/-- C8 fails on the code: an input of one line of 999 characters 'x' does not
fit `char line[1000]`; `fgets` returns the 999 characters and then the bare
line break, for which the loop calls `track_start_segment`.  The input has no
blank line and no line that parses, yet the track ends with two segments
instead of one. -/
theorem long_line_starts_segment :
    fgetsBuffers 1000 (inputText [List.replicate 999 'x'] [])
        = [List.replicate 999 'x', ['\n']] ∧
      ingest (track_create : Track Int) track_add_point track_start_segment (fun _ => none)
          (fgetsBuffers 1000 (inputText [List.replicate 999 'x'] []))
        = [[], []] ∧
      List.replicate 999 'x' ≠ [] := by
  have hno : ∀ ch ∈ List.replicate 999 'x', ch ≠ '\n' := by
    intro ch hch
    rw [List.eq_of_mem_replicate hch]
    decide
  have h := @ingest_full_line Int (List.replicate 999 'x') hno (List.length_replicate _ _)
  refine ⟨h.1, h.2, ?_⟩
  intro hnil
  have hlen := congrArg List.length hnil
  rw [List.length_replicate] at hlen
  exact absurd hlen (by decide)

/-- C8, amended: for every input whose lines are each at most 998 characters
long, so that `fgets` returns every line whole in `char line[1000]`, the ingest
loop applies to the created track one `add_point` per line that parses, one
`start_segment` per blank line and nothing for any other line, in input order
(`sscanf` reads no number from the bare line break).  Under the Track model of
the specification the resulting track has `1 + (number of blank lines)`
segments, the concatenation of its segments is the sequence of parsed points
in input order, and two blocks of point lines separated by one blank line give
exactly two segments. -/
theorem ingest_applies_records {D : Type} (scan3 : List Char → Option (Trackpoint D))
    (lines : List (List Char)) (lastLine : List Char)
    (hlines : ∀ l ∈ lines, (∀ ch ∈ l, ch ≠ '\n') ∧ l.length ≤ 998)
    (hlast : (∀ ch ∈ lastLine, ch ≠ '\n') ∧ lastLine.length ≤ 998)
    (hnl : scan3 ['\n'] = none) :
    fgetsBuffers 1000 (inputText lines lastLine) = inputLines lines lastLine ∧
      (∀ (T : Type) (create : T) (add : T → Trackpoint D → T) (brk : T → T),
        ingest create add brk scan3 (fgetsBuffers 1000 (inputText lines lastLine))
          = ((inputLines lines lastLine).filterMap (recordOf scan3)).foldl
              (applyRecord add brk) create) ∧
      (ingest track_create track_add_point track_start_segment scan3
          (fgetsBuffers 1000 (inputText lines lastLine))).length
        = 1 + lines.countP (fun l => decide (l = [])) ∧
      (ingest track_create track_add_point track_start_segment scan3
          (fgetsBuffers 1000 (inputText lines lastLine))).flatten
        = (inputLines lines lastLine).filterMap scan3 ∧
      (∀ block1 block2 : List (List Char), lines = block1 ++ [] :: block2 →
        (∀ b ∈ inputLines block1 [] ++ inputLines block2 lastLine, (scan3 b).isSome = true) →
        ingest track_create track_add_point track_start_segment scan3
            (fgetsBuffers 1000 (inputText lines lastLine))
          = [(inputLines block1 []).filterMap scan3,
              (inputLines block2 lastLine).filterMap scan3]) := by
  have hnoNl : ∀ l ∈ lines, ∀ ch ∈ l, ch ≠ '\n' := fun l hl => (hlines l hl).1
  have hbuf : fgetsBuffers 1000 (inputText lines lastLine) = inputLines lines lastLine :=
    fgetsFrom_inputText 999 lines lastLine
      (fun l hl => ⟨(hlines l hl).1, by have := (hlines l hl).2; omega⟩)
      ⟨hlast.1, by have := hlast.2; omega⟩
  have hfgets := inputLines_blank lines lastLine hnoNl hlast.1
  have hblank : ∀ b ∈ inputLines lines lastLine, b.head? = some '\n' → scan3 b = none := by
    intro b hb hhead
    rw [hfgets b hb hhead]
    exact hnl
  have hseg := ingest_segments scan3 (inputLines lines lastLine) hblank [] []
  rw [hbuf]
  refine ⟨rfl, ?_, ?_, ?_, ?_⟩
  · intro T create add brk
    exact ingest_eq_foldl_records add brk scan3 _ hblank create
  · have := hseg.1
    simp only [List.nil_append, List.length_nil] at this
    rw [countP_blank_inputLines lines lastLine hnoNl hlast.1] at this
    unfold ingest track_create
    omega
  · have := hseg.2
    simpa [ingest, track_create] using this
  · intro block1 block2 hsplit hall
    have hsplitB : inputLines lines lastLine
        = inputLines block1 [] ++ ['\n'] :: inputLines block2 lastLine := by
      rw [hsplit]
      simp [inputLines]
    have hmem : ∀ b ∈ inputLines block1 [] ++ inputLines block2 lastLine,
        b ∈ inputLines lines lastLine := by
      intro b hb
      rw [hsplitB]
      rcases List.mem_append.1 hb with h | h
      · exact List.mem_append_left _ h
      · exact List.mem_append_right _ (List.mem_cons_of_mem _ h)
    have hno : ∀ b ∈ inputLines block1 [] ++ inputLines block2 lastLine,
        b.head? ≠ some '\n' := by
      intro b hb hhead
      have h1 := hall b hb
      rw [hblank b (hmem b hb) hhead] at h1
      exact absurd h1 (by simp)
    have h1 := ingest_block scan3 (inputLines block1 [])
      (fun b hb => hno b (List.mem_append_left _ hb)) [] []
    have h2 := ingest_block scan3 (inputLines block2 lastLine)
      (fun b hb => hno b (List.mem_append_right _ hb))
      [[] ++ (inputLines block1 []).filterMap scan3] []
    rw [hsplitB]
    unfold ingest track_create
    rw [List.foldl_append, List.foldl_cons]
    simp only [List.nil_append] at h1 h2
    rw [h1]
    have hstep : ingestStep track_add_point track_start_segment scan3
        [List.filterMap scan3 (inputLines block1 [])] ['\n']
          = [List.filterMap scan3 (inputLines block1 [])] ++ [[]] := by
      simp [ingestStep, hnl, track_start_segment]
    rw [hstep, h2]
    rfl

/-- Instance of the amended C8: a point line, a blank line, a malformed line and
a point line give two segments holding the two points. -/
theorem ingest_applies_records_witness :
    (ingest track_create track_add_point track_start_segment sampleScan3
        (fgetsBuffers 1000
          (inputText [['1', ' ', '2', ' ', '3'], [], ['x'], ['1', ' ', '2', ' ', '3']] []))).length
        = 1 + List.countP (fun l => decide (l = []))
          [['1', ' ', '2', ' ', '3'], [], ['x'], ['1', ' ', '2', ' ', '3']] ∧
      (ingest track_create track_add_point track_start_segment sampleScan3
        (fgetsBuffers 1000
          (inputText [['1', ' ', '2', ' ', '3'], [], ['x'], ['1', ' ', '2', ' ', '3']] []))).flatten
        = List.filterMap sampleScan3
          (inputLines [['1', ' ', '2', ' ', '3'], [], ['x'], ['1', ' ', '2', ' ', '3']] []) :=
  have h := ingest_applies_records sampleScan3
    [['1', ' ', '2', ' ', '3'], [], ['x'], ['1', ' ', '2', ' ', '3']] []
    (by decide) (by decide) (by decide)
  ⟨h.2.2.1, h.2.2.2.1⟩

end Heatmap

namespace Heatmap

/-! ## Conservation of points by the binner -/

/-- Incrementing one count keeps the length of the row. -/
theorem bumpAt_length (r : List Nat) (j : Nat) : (bumpAt r j).length = r.length := by
  induction r generalizing j with
  | nil => rfl
  | cons c cs ih => cases j <;> simp [bumpAt, ih]

/-- Incrementing the count at a valid index adds one to the sum of the row. -/
theorem bumpAt_sum (r : List Nat) (j : Nat) (hj : j < r.length) :
    (bumpAt r j).sum = r.sum + 1 := by
  induction r generalizing j with
  | nil => simp at hj
  | cons c cs ih =>
    cases j with
    | zero => simp [bumpAt]; omega
    | succ j =>
      have := ih j (by simpa using hj)
      simp [bumpAt, this]; omega

/-- Incrementing a cell keeps the number of rows. -/
theorem bumpCell_length (g : List (List Nat)) (i j : Nat) :
    (bumpCell g i j).length = g.length := by
  induction g generalizing i with
  | nil => rfl
  | cons r rs ih => cases i <;> simp [bumpCell, ih]

/-- Incrementing a cell keeps every row at the common width. -/
theorem bumpCell_width (g : List (List Nat)) (i j w : Nat) (hw : ∀ r ∈ g, r.length = w) :
    ∀ r ∈ bumpCell g i j, r.length = w := by
  induction g generalizing i with
  | nil => intro r hr; simp [bumpCell] at hr
  | cons r0 rs ih =>
    have h0 : r0.length = w := hw r0 (List.mem_cons_self _ _)
    have hrs : ∀ r ∈ rs, r.length = w := fun r hr => hw r (List.mem_cons_of_mem _ hr)
    cases i with
    | zero =>
      intro r hr
      rcases List.mem_cons.1 hr with h | h
      · rw [h, bumpAt_length, h0]
      · exact hrs r h
    | succ i =>
      intro r hr
      rcases List.mem_cons.1 hr with h | h
      · rw [h, h0]
      · exact ih i hrs r h

/-- Incrementing a cell inside the grid adds one to the sum of all counts. -/
theorem bumpCell_sum (g : List (List Nat)) (i j w : Nat) (hw : ∀ r ∈ g, r.length = w)
    (hi : i < g.length) (hj : j < w) :
    ((bumpCell g i j).map List.sum).sum = (g.map List.sum).sum + 1 := by
  induction g generalizing i with
  | nil => simp at hi
  | cons r0 rs ih =>
    have h0 : r0.length = w := hw r0 (List.mem_cons_self _ _)
    have hrs : ∀ r ∈ rs, r.length = w := fun r hr => hw r (List.mem_cons_of_mem _ hr)
    cases i with
    | zero =>
      simp [bumpCell, bumpAt_sum r0 j (by omega)]; omega
    | succ i =>
      have := ih i hrs (by simpa using hi)
      simp [bumpCell, this]; omega

/-- Binning points whose cells all lie inside a grid of `h` rows of width `w`
keeps the shape of the grid and adds the number of points to the sum of all
counts, whatever rule assigns the cells. -/
theorem foldl_bumpCell {P : Type} (cell : P → Nat × Nat) (h w : Nat)
    (hcell : ∀ p : P, (cell p).1 < h ∧ (cell p).2 < w) (pts : List P)
    (g : List (List Nat)) (hg : g.length = h) (hw : ∀ r ∈ g, r.length = w) :
    (pts.foldl (fun grid pt => bumpCell grid (cell pt).1 (cell pt).2) g).length = h ∧
      (∀ r ∈ pts.foldl (fun grid pt => bumpCell grid (cell pt).1 (cell pt).2) g,
        r.length = w) ∧
      ((pts.foldl (fun grid pt => bumpCell grid (cell pt).1 (cell pt).2) g).map List.sum).sum
        = (g.map List.sum).sum + pts.length := by
  induction pts generalizing g with
  | nil => exact ⟨hg, hw, by simp⟩
  | cons p rest ih =>
    have hlen : (bumpCell g (cell p).1 (cell p).2).length = h := by
      rw [bumpCell_length, hg]
    have hwid := bumpCell_width g (cell p).1 (cell p).2 w hw
    obtain ⟨h1, h2, h3⟩ := ih (bumpCell g (cell p).1 (cell p).2) hlen hwid
    refine ⟨h1, h2, ?_⟩
    rw [List.foldl_cons, h3,
      bumpCell_sum g (cell p).1 (cell p).2 w hw (by rw [hg]; exact (hcell p).1) (hcell p).2]
    simp only [List.length_cons]
    omega

/-- A clamped index of an axis with at least one cell lies inside the axis. -/
theorem clamp_toNat_lt (x d : Int) (hd : 1 ≤ d) : (clamp x 0 (d - 1)).toNat < d.toNat := by
  unfold clamp
  have h1 : max 0 (min x (d - 1)) ≤ d - 1 := max_le (by omega) (min_le_right _ _)
  have h2 : 0 ≤ max 0 (min x (d - 1)) := le_max_left _ _
  omega

/-- Every grid dimension is at least 1. -/
theorem gridDim_pos (size : ℚ) : 1 ≤ gridDim size := le_max_left _ _

/-- The grid of the binner has `rows` rows of `cols` cells and its counts add up
to the number of points of the track. -/
theorem binGrid_shape_sum (trk : Track ℚ) (width height : ℚ) :
    (binGrid trk width height).length = (gridDim height).toNat ∧
      (∀ r ∈ binGrid trk width height, r.length = (gridDim width).toNat) ∧
      ((binGrid trk width height).map List.sum).sum = (trk.map List.length).sum := by
  have hr := gridDim_pos height
  have hc := gridDim_pos width
  obtain ⟨h1, h2, h3⟩ := foldl_bumpCell
    (cellOf (gridDim height) (gridDim width)
      (axisBounds (trk.flatten.map Trackpoint.lat)) (axisBounds (trk.flatten.map Trackpoint.lon)))
    (gridDim height).toNat (gridDim width).toNat
    (fun p => ⟨clamp_toNat_lt _ _ hr, clamp_toNat_lt _ _ hc⟩) trk.flatten
    (List.replicate (gridDim height).toNat (List.replicate (gridDim width).toNat 0))
    (by simp) (by intro r hr; rw [List.eq_of_mem_replicate hr]; simp)
  refine ⟨h1, h2, ?_⟩
  unfold binGrid
  rw [h3, List.length_flatten]
  have : ((List.replicate (gridDim height).toNat
      (List.replicate (gridDim width).toNat 0)).map List.sum).sum = 0 := by
    simp
  omega

end Heatmap

namespace Heatmap

/-- Summing a row after converting its counts to `int` gives the same total. -/
theorem sum_map_ofNat (r : List Nat) : (r.map Int.ofNat).sum = ((r.sum : Nat) : Int) := by
  induction r with
  | nil => rfl
  | cons c cs ih => simp [ih]

/-- Summing the whole grid after converting its counts to `int` gives the same
total. -/
theorem gridSum_map_ofNat (g : List (List Nat)) :
    ((g.map (List.map Int.ofNat)).map List.sum).sum = (((g.map List.sum).sum : Nat) : Int) := by
  induction g with
  | nil => rfl
  | cons r rs ih =>
    simp only [List.map_cons, List.sum_cons, ih, sum_map_ofNat]
    push_cast
    rfl

/-- C9 (conservation): for every track, whatever the number of its segments,
and every requested width and height, the counts of the grid that
`track_heatmap` returns add up to the number of points of the track; that grid
has `rows` rows of `cols` cells each. -/
theorem heatmap_conserves_points (trk : Track ℚ) (width height : ℚ) :
    (((track_heatmap trk width height).1.map List.sum).sum : Int)
        = (((trk.map List.length).sum : Nat) : Int) ∧
      ((track_heatmap trk width height).1.length : Int) = (track_heatmap trk width height).2.1 ∧
      ∀ row ∈ (track_heatmap trk width height).1,
        (row.length : Int) = (track_heatmap trk width height).2.2 := by
  obtain ⟨h1, h2, h3⟩ := binGrid_shape_sum trk width height
  have hr := gridDim_pos height
  have hc := gridDim_pos width
  refine ⟨?_, ?_, ?_⟩
  · show (((binGrid trk width height).map (List.map Int.ofNat)).map List.sum).sum = _
    rw [gridSum_map_ofNat, h3]
  · show ((((binGrid trk width height).map (List.map Int.ofNat)).length : Nat) : Int)
      = gridDim height
    rw [List.length_map, h1]
    omega
  · intro row hrow
    obtain ⟨r, hr1, rfl⟩ := List.mem_map.1 hrow
    show (((r.map Int.ofNat).length : Nat) : Int) = gridDim width
    rw [List.length_map, h2 r hr1]
    omega

end Heatmap


namespace Heatmap

/-! ## Configuration handling of `main` -/

/-- With `N ≤ 0`, `M ≥ 1` and `INT_MIN < (M - 1) * N` a well-formed grid of
non-negative counts is printed with the last symbol in every cell. -/
theorem render_nonpos_bucket (alphabet : List Char) (n : Int) (map : List (List Int))
    (rows cols : Int) (last : Char) (hM : 1 ≤ alphabet.length) (hn : n ≤ 0)
    (hfit : INT_MIN < ((alphabet.length : Int) - 1) * n)
    (hlast : alphabet[alphabet.length - 1]? = some last)
    (hrows : (map.length : Int) = rows) (hcols : ∀ row ∈ map, (row.length : Int) = cols)
    (hcells : ∀ row ∈ map, ∀ c ∈ row, 0 ≤ c) :
    render alphabet n map rows cols
      = some ((map.map (fun row => List.replicate row.length last ++ ['\n'])).flatten) := by
  have hf : ∀ row ∈ map, ∀ c ∈ row, cellChar alphabet n c = some ((fun _ => last) c) := by
    intro row hrow c hc
    obtain ⟨_, _, ch, h1, h2⟩ :=
      cellChar_nonpos_bucket alphabet n c hM hn (hcells row hrow c hc) hfit
    rw [hlast] at h1
    rw [h2, ← Option.some.inj h1]
  rw [render_eq_map alphabet n map rows cols (fun _ => last) hf hrows hcols]
  simp

/-- C4, as the code behaves: `main` has no configuration check.  For every
invocation, valid or not (`N ≤ 0`, empty alphabet, non-positive width or
height included), it ends without a configuration error, having called
`track_heatmap` once with the ingested track and the requested width and
height, and prints the rendering of the grid that call returned.  With
`N ≤ 0`, a nonempty alphabet, no overflowing product
(`INT_MIN < (M - 1) * N`) and a returned grid of `rows` by `cols` non-negative
counts, every cell is printed as the last symbol. -/
theorem main_never_rejects_configuration {T D : Type} (create : T)
    (add : T → Trackpoint D → T) (brk : T → T)
    (heatmap : T → D → D → List (List Int) × Int × Int)
    (scan3 : List Char → Option (Trackpoint D)) (width height : D) (argv3 : List Char)
    (n : Int) (stdin : List Char) :
    main create add brk heatmap scan3 width height argv3 n stdin ≠ Outcome.configError ∧
      (∃ run : MainRun T D,
        main create add brk heatmap scan3 width height argv3 n stdin = Outcome.completed run ∧
        run.heatmapCalls
          = [(ingest create add brk scan3 (fgetsBuffers 1000 stdin), width, height)] ∧
        run.stdout = render argv3 n
          (heatmap (ingest create add brk scan3 (fgetsBuffers 1000 stdin)) width height).1
          (heatmap (ingest create add brk scan3 (fgetsBuffers 1000 stdin)) width height).2.1
          (heatmap (ingest create add brk scan3 (fgetsBuffers 1000 stdin)) width height).2.2 ∧
        (n ≤ 0 → 1 ≤ argv3.length → INT_MIN < ((argv3.length : Int) - 1) * n →
          (((heatmap (ingest create add brk scan3 (fgetsBuffers 1000 stdin))
              width height).1.length : Int)
            = (heatmap (ingest create add brk scan3 (fgetsBuffers 1000 stdin))
                width height).2.1) →
          (∀ row ∈ (heatmap (ingest create add brk scan3 (fgetsBuffers 1000 stdin))
              width height).1,
            (row.length : Int)
              = (heatmap (ingest create add brk scan3 (fgetsBuffers 1000 stdin))
                  width height).2.2) →
          (∀ row ∈ (heatmap (ingest create add brk scan3 (fgetsBuffers 1000 stdin))
              width height).1,
            ∀ c ∈ row, 0 ≤ c) →
          ∃ last : Char, argv3[argv3.length - 1]? = some last ∧
            run.stdout = some
              (((heatmap (ingest create add brk scan3 (fgetsBuffers 1000 stdin))
                  width height).1.map
                (fun row => List.replicate row.length last ++ ['\n'])).flatten))) := by
  refine ⟨by simp [main], _, rfl, rfl, rfl, ?_⟩
  intro hn hM hfit hrows hcols hcells
  have hidx : argv3.length - 1 < argv3.length := by omega
  exact ⟨argv3.get ⟨_, hidx⟩, List.getElem?_eq_getElem hidx,
    render_nonpos_bucket argv3 n _ _ _ _ hM hn hfit (List.getElem?_eq_getElem hidx)
      hrows hcols hcells⟩

/-- C4 fails on the code: with bucket size 0 (width 2, height 1, alphabet "ab",
empty input) `main` does not report a configuration error; it calls
`track_heatmap` and prints a line of two cells. -/
theorem invalid_configuration_not_rejected :
    main (track_create : Track ℚ) track_add_point track_start_segment track_heatmap
        (fun _ => none) 2 1 ['a', 'b'] 0 []
      ≠ Outcome.configError ∧
    ∃ run : MainRun (Track ℚ) ℚ,
      main (track_create : Track ℚ) track_add_point track_start_segment track_heatmap
          (fun _ => none) 2 1 ['a', 'b'] 0 []
        = Outcome.completed run ∧
      run.heatmapCalls = [([[]], 2, 1)] ∧ run.stdout = some ['b', 'b', '\n'] :=
  ⟨by simp [main], _, rfl, rfl, by decide⟩

end Heatmap

namespace Heatmap

/-- Instance of the amended C4: width 3, height 2, bucket size -1, alphabet
"xyz" and empty input print two lines of three cells, all as the last
symbol. -/
theorem main_never_rejects_configuration_witness :
    ∃ run : MainRun (Track ℚ) ℚ,
      main (track_create : Track ℚ) track_add_point track_start_segment track_heatmap
          (fun _ => none) 3 2 ['x', 'y', 'z'] (-1) []
        = Outcome.completed run ∧
      run.heatmapCalls = [([[]], 3, 2)] ∧
      run.stdout = some ['z', 'z', 'z', '\n', 'z', 'z', 'z', '\n'] := by
  obtain ⟨_, run, h1, h2, _, h4⟩ :=
    main_never_rejects_configuration (track_create : Track ℚ) track_add_point
      track_start_segment track_heatmap (fun _ => none) 3 2 ['x', 'y', 'z'] (-1) []
  obtain ⟨last, hlast, hout⟩ :=
    h4 (by decide) (by decide) (by decide) (by decide) (by decide) (by decide)
  have hb : last = 'z' := (Option.some.inj hlast).symm
  subst hb
  exact ⟨run, h1, h2, hout⟩

end Heatmap
